import Mathlib

/-!
Verification of the opencode Python repository (`opencode_python`) against its
natural-language specification.  Each section embeds the relevant Python
functions as executable Lean definitions (strings are modelled as `List Char`,
machine integers as `Nat`), and proves or refutes the frozen claims about them.
-/

/-- Characters treated as whitespace by Python's `str.strip()` / `str.split()`
for ASCII input: space, tab, newline, carriage return, vertical tab, form feed. -/
def isPyWs (c : Char) : Bool :=
  c == ' ' || c == '\t' || c == '\n' || c == '\r' || c.toNat == 11 || c.toNat == 12

/-- Shorthand turning a Lean string literal into the `List Char` model. -/
def cs (s : String) : List Char :=
  s.data

/-- Python `str.lstrip()`. -/
def pyLstrip (l : List Char) : List Char :=
  l.dropWhile isPyWs

/-- Python `str.strip()`: drop whitespace from both ends. -/
def pyStrip (l : List Char) : List Char :=
  ((l.dropWhile isPyWs).reverse.dropWhile isPyWs).reverse

/-- Python `str.split('\n')`: split on every newline, keeping empty segments. -/
def splitNl : List Char → List (List Char)
  | [] => [[]]
  | c :: rest =>
    if c = '\n' then [] :: splitNl rest
    else
      match splitNl rest with
      | [] => [[c]]
      | l :: ls => (c :: l) :: ls

/-- `sep.join(parts)` on the `List Char` model. -/
def joinSep (sep : List Char) : List (List Char) → List Char
  | [] => []
  | [l] => l
  | l :: rest => l ++ sep ++ joinSep sep rest

/-- Accumulator loop behind `pySplit` (Python `str.split()` with no separator). -/
def pySplitGo (cur : List Char) : List Char → List (List Char)
  | [] => if cur = [] then [] else [cur.reverse]
  | c :: rest =>
    if isPyWs c then
      if cur = [] then pySplitGo [] rest else cur.reverse :: pySplitGo [] rest
    else pySplitGo (c :: cur) rest

/-- Python `str.split()` (no argument): split on whitespace runs, dropping empties. -/
def pySplit (l : List Char) : List (List Char) :=
  pySplitGo [] l

/-- `' '.join(text.split())`, the normalisation used by the edit tool's
whitespace-normalised strategy (`edit.py`, `normalize_whitespace`). -/
def normalizeWs (l : List Char) : List Char :=
  joinSep [' '] (pySplit l)

section BashTool

/-!
## `bash` tool (`tools/bash.py`)

`BashParameters.timeout` is `Optional[int]` with pydantic bounds `ge=0, le=600`;
`BashTool.execute` computes `timeout = min(args.timeout or DEFAULT_TIMEOUT, MAX_TIMEOUT)`
with `DEFAULT_TIMEOUT = 60` and `MAX_TIMEOUT = 600`.  Python's `or` treats `None`
and `0` alike (both falsy).
-/

/-- The pydantic validation of `BashParameters.timeout` (`ge=0`, `le=600`). -/
def validBashTimeoutField (t : Option Int) : Bool :=
  match t with
  | none => true
  | some v => decide (0 ≤ v) && decide (v ≤ 600)

/-- `min(args.timeout or DEFAULT_TIMEOUT, MAX_TIMEOUT)` from `BashTool.execute`.
`args.timeout or DEFAULT_TIMEOUT` yields the default when the field is `None`
or `0`, because both are falsy in Python. -/
def bashEffectiveTimeout (t : Option Nat) : Nat :=
  min (match t with
       | none => 60
       | some v => if v = 0 then 60 else v) 600

end BashTool

section CopilotProvider

/-!
## GitHub Copilot provider (`provider/github_copilot_provider.py`)

`GitHubCopilotProvider.chat` builds a fixed header dictionary and then adds
`X-Initiator: agent` when any request message has role `tool` or `assistant`,
and `X-Initiator: user` otherwise (lines 100–121).
-/

/-- A provider chat message (`provider.py`, `ChatMessage`): only the fields the
header computation inspects. -/
structure PChatMessage where
  role : String
  content : String
deriving DecidableEq, Repr

/-- `any(msg.role in ["tool", "assistant"] for msg in request.messages)`. -/
def isAgentCall (messages : List PChatMessage) : Bool :=
  messages.any (fun m => m.role == "tool" || m.role == "assistant")

/-- The header list built by `GitHubCopilotProvider.chat`, in source order,
with the `X-Initiator` entry appended according to `isAgentCall`. -/
def copilotChatHeaders (accessToken : String) (messages : List PChatMessage) :
    List (String × String) :=
  [("Accept", "application/json"),
   ("Content-Type", "application/json"),
   ("Authorization", "Bearer " ++ accessToken),
   ("Openai-Intent", "conversation-edits"),
   ("User-Agent", "GitHubCopilotChat/0.26.7"),
   ("Editor-Version", "vscode/1.99.3"),
   ("Editor-Plugin-Version", "copilot-chat/0.26.7")] ++
  [("X-Initiator", if isAgentCall messages then "agent" else "user")]

end CopilotProvider

/-- C8: every chat request sent by the GitHub Copilot provider carries the
`X-Initiator` header, set to `"agent"` exactly when some request message has
role `tool` or `assistant`, and to `"user"` otherwise. -/
theorem copilot_x_initiator_header (accessToken : String)
    (messages : List PChatMessage) :
    (copilotChatHeaders accessToken messages).lookup "X-Initiator" =
      some (if messages.any (fun m => m.role == "tool" || m.role == "assistant")
            then "agent" else "user") := by
  simp [copilotChatHeaders, isAgentCall, List.lookup]

/-- C9: the bash tool's effective timeout is `min(t, 600)` seconds for a
supplied non-zero timeout `t`, and `60` seconds when the timeout is omitted or
equal to `0`; the parameter schema accepts a timeout of `0`. -/
theorem bash_effective_timeout (t : Nat) :
    (t ≠ 0 → bashEffectiveTimeout (some t) = min t 600) ∧
    bashEffectiveTimeout none = 60 ∧
    bashEffectiveTimeout (some 0) = 60 ∧
    validBashTimeoutField (some 0) = true := by
  refine ⟨fun ht => ?_, rfl, rfl, rfl⟩
  simp [bashEffectiveTimeout, ht]

/-- Witness for C9 at `t = 700`: a non-zero requested timeout is clamped to the
600-second ceiling, and omitted/zero timeouts fall back to 60 seconds. -/
theorem bash_effective_timeout_witness :
    bashEffectiveTimeout (some 700) = min 700 600 ∧
    bashEffectiveTimeout none = 60 := by
  exact ⟨(bash_effective_timeout 700).1 (by decide),
    (bash_effective_timeout 700).2.1⟩

section SessionStreaming

/-!
## Chat orchestrator streaming (`session/session.py`, `Session.chat_streaming`)

`_process_streaming` (lines 291–401) consumes the provider stream when the
provider has a `chat_streaming` method.  The loop handles provider chunks of
type `content`, `tool_calls` and `complete`; a provider chunk of type `error`
(which `AnthropicProvider.chat_streaming` yields after any API failure) matches
no branch and is dropped, and if the provider stream ends without a `complete`
chunk the response is never marked complete.  An exception raised while
processing is caught and turned into an `error` chunk followed by `complete`.
-/

/-- A chunk yielded by a provider's `chat_streaming` async generator
(the dict values observed by `_process_streaming`). -/
inductive ProviderStreamChunk where
  | content (text : String)
  | toolCalls (calls : List String)
  | complete (usage : Option Nat)
  | error (message : String)
  | other (tag : String)
deriving DecidableEq, Repr

/-- One step of iterating the provider stream: either the generator yields a
chunk, or it raises an exception at that point (ending the iteration). -/
inductive StreamEvent where
  | chunk (c : ProviderStreamChunk)
  | raise (message : String)
deriving DecidableEq, Repr

/-- A chunk delivered downstream by `StreamingSessionResponse.add_chunk`. -/
inductive SessionChunk where
  | content (text : String)
  | status (text : String)
  | toolCalls (calls : List String)
  | toolStart (text : String)
  | toolResult (text : String)
  | toolError (text : String)
  | error (text : String)
  | complete
deriving DecidableEq, Repr

/-- The downstream chunk sequence produced by `_process_streaming`'s streaming
branch for a given provider event sequence: `content` and `tool_calls` chunks
are forwarded, a `complete` chunk emits the terminal `complete` and stops, an
exception emits `error` then `complete`, and any other chunk type (including
provider `error` chunks) matches no branch and is skipped; a stream that ends
without `complete` leaves the response unterminated. -/
def processProviderStream : List StreamEvent → List SessionChunk
  | [] => []
  | .raise m :: _ => [.error ("Error: " ++ m), .complete]
  | .chunk c :: rest =>
    match c with
    | .content s => .content s :: processProviderStream rest
    | .toolCalls t => .toolCalls t :: processProviderStream rest
    | .complete _ => [.complete]
    | .error _ => processProviderStream rest
    | .other _ => processProviderStream rest

/-- Number of `complete` chunks in a delivered sequence. -/
def countComplete (l : List SessionChunk) : Nat :=
  l.countP (fun c => match c with | .complete => true | _ => false)

end SessionStreaming

/-- C1: refutation on the code as written.  When the streaming provider ends
its stream with an `error` chunk — exactly what `AnthropicProvider.chat_streaming`
does after an API failure — the turn delivers no chunk at all: no `error` chunk,
and zero (not one) terminal `complete` chunks, so the consumer polls forever. -/
theorem streaming_provider_error_drops_completion :
    processProviderStream
        [.chunk (.error "Anthropic streaming error: boom")] = [] ∧
    countComplete
      (processProviderStream
        [.chunk (.error "Anthropic streaming error: boom")]) = 0 := by
  exact ⟨rfl, rfl⟩

section SessionStore

/-!
## Session store (`session/session.py`, `add_message` / `get_messages`)

`add_message` writes `messages/<msg.id>.json` (overwriting any message file
with the same id) and then `_update_session_info` recomputes
`message_count = len(get_messages(session))`.  `get_messages` reads every
message file and sorts by timestamp.  Timestamps are modelled as `Nat`.
-/

/-- The fields of a persisted message relevant to the store's invariants. -/
structure StoredMessage where
  id : String
  timestamp : Nat
deriving DecidableEq, Repr

/-- `add_message`: writing `messages/<id>.json` overwrites a message with the
same id and otherwise adds a new file. -/
def addMessage (store : List StoredMessage) (m : StoredMessage) :
    List StoredMessage :=
  if store.any (fun x => x.id == m.id) then
    store.map (fun x => if x.id == m.id then m else x)
  else store ++ [m]

/-- `get_messages`: read all message files and sort by timestamp
(`messages.sort(key=lambda m: m.timestamp)`). -/
def getMessages (store : List StoredMessage) : List StoredMessage :=
  store.mergeSort (fun a b => decide (a.timestamp ≤ b.timestamp))

/-- The `message_count` recomputed by `_update_session_info`:
`len(get_messages(session))`. -/
def updatedMessageCount (store : List StoredMessage) : Nat :=
  (getMessages store).length

end SessionStore

/-- C2: after any sequence of `add_message` calls on a fresh session,
`get_messages` returns exactly the persisted messages (a permutation of the
stored files) in non-decreasing timestamp order, and the recomputed
`message_count` equals the number of persisted messages. -/
theorem session_messages_sorted_and_counted (ms : List StoredMessage) :
    (getMessages (ms.foldl addMessage [])).Pairwise
        (fun a b => a.timestamp ≤ b.timestamp) ∧
    (getMessages (ms.foldl addMessage [])).Perm (ms.foldl addMessage []) ∧
    updatedMessageCount (ms.foldl addMessage []) =
      (ms.foldl addMessage []).length := by
  refine ⟨?_, List.mergeSort_perm _ _, List.length_mergeSort _⟩
  have h := @List.sorted_mergeSort StoredMessage
    (fun a b : StoredMessage => decide (a.timestamp ≤ b.timestamp))
    (fun a b c hab hbc => by
      simp only [decide_eq_true_eq] at hab hbc ⊢
      omega)
    (fun a b => by
      simpa using Nat.le_total a.timestamp b.timestamp)
    (ms.foldl addMessage [])
  exact h.imp (fun hab => by simpa using hab)

section CopilotAuth

/-!
## GitHub Copilot token refresh (`auth.py`)

`GitHubCopilotAuthManager.get_access_token(force_refresh)` (lines 362–406)
reads the stored credential, returns the cached access token when it is
non-empty, unexpired and no refresh is forced, and otherwise makes exactly one
call to `GitHubCopilotAuth.access(refresh)`.  On refresh failure it returns
`None` without touching the stored credential; on success it persists the new
triple via `Auth.set`.  The HTTP exchange is abstracted by its outcome
(`refreshOutcome`), with `expires` already converted to milliseconds as in
`auth.py` line 322.
-/

/-- A stored OAuth credential (`OAuthInfo`): `expires` in wall-clock ms. -/
structure OAuthCred where
  refresh : String
  access : String
  expires : Nat
deriving DecidableEq, Repr

/-- A stored credential (`AuthInfo`): OAuth triple or plain API key. -/
inductive StoredCred where
  | oauth (info : OAuthCred)
  | api (key : String)
deriving DecidableEq, Repr

/-- The result of `GitHubCopilotAuth.access(refresh)` on success
(`AccessResult`): `expires` in milliseconds. -/
structure AccessExchange where
  refresh : String
  access : String
  expires : Nat
deriving DecidableEq, Repr

/-- Observable outcome of one `get_access_token` call: the returned token, the
number of refresh HTTP attempts made, and the stored credential afterwards. -/
structure TokenFetchResult where
  token : Option String
  refreshCalls : Nat
  stored : Option StoredCred
deriving DecidableEq, Repr

/-- `GitHubCopilotAuthManager.get_access_token`: `refreshOutcome` is what the
single `access(refresh)` HTTP attempt would return (`none` = failure). -/
def getAccessToken (stored : Option StoredCred) (nowMs : Nat)
    (forceRefresh : Bool) (refreshOutcome : Option AccessExchange) :
    TokenFetchResult :=
  match stored with
  | none => ⟨none, 0, stored⟩
  | some (.api _) => ⟨none, 0, stored⟩
  | some (.oauth o) =>
    if !forceRefresh && o.access != "" && decide (nowMs < o.expires) then
      ⟨some o.access, 0, stored⟩
    else
      match refreshOutcome with
      | none => ⟨none, 1, stored⟩
      | some r => ⟨some r.access, 1, some (.oauth ⟨r.refresh, r.access, r.expires⟩)⟩

end CopilotAuth

/-- C3: with a stored OAuth credential, `get_access_token` returns the cached
access token with no HTTP call when it is non-empty, strictly unexpired and no
refresh is forced; otherwise it makes exactly one refresh attempt, and a failed
refresh returns `none` while leaving the stored credential (and so its refresh
token) in place. -/
theorem copilot_get_access_token (o : OAuthCred) (nowMs : Nat) (force : Bool)
    (refreshOutcome : Option AccessExchange) :
    (force = false → o.access ≠ "" → nowMs < o.expires →
      getAccessToken (some (.oauth o)) nowMs force refreshOutcome =
        ⟨some o.access, 0, some (.oauth o)⟩) ∧
    ((force = true ∨ o.access = "" ∨ o.expires ≤ nowMs) →
      (getAccessToken (some (.oauth o)) nowMs force refreshOutcome).refreshCalls
        = 1) ∧
    ((force = true ∨ o.access = "" ∨ o.expires ≤ nowMs) →
      refreshOutcome = none →
      getAccessToken (some (.oauth o)) nowMs force refreshOutcome =
        ⟨none, 1, some (.oauth o)⟩) := by
  refine ⟨fun hf ha he => ?_, fun h => ?_, fun h hro => ?_⟩
  · subst hf
    simp [getAccessToken, ha, he]
  · have hcond : (!force && o.access != "" && decide (nowMs < o.expires)) = false := by
      rcases h with h | h | h
      · subst h; rfl
      · simp [h]
      · simp [Nat.not_lt.mpr h]
    cases refreshOutcome <;> simp [getAccessToken, hcond]
  · subst hro
    have hcond : (!force && o.access != "" && decide (nowMs < o.expires)) = false := by
      rcases h with h | h | h
      · subst h; rfl
      · simp [h]
      · simp [Nat.not_lt.mpr h]
    simp [getAccessToken, hcond]

/-- Witness for C3: a fresh cached token (expires 1000 ms, now 500 ms) is
returned without any HTTP call, and an expired one (now 2000 ms) triggers one
failing refresh that leaves the stored credential untouched. -/
theorem copilot_get_access_token_witness :
    getAccessToken (some (.oauth ⟨"r", "tok", 1000⟩)) 500 false none =
      ⟨some "tok", 0, some (.oauth ⟨"r", "tok", 1000⟩)⟩ ∧
    getAccessToken (some (.oauth ⟨"r", "tok", 1000⟩)) 2000 false none =
      ⟨none, 1, some (.oauth ⟨"r", "tok", 1000⟩)⟩ := by
  exact ⟨(copilot_get_access_token ⟨"r", "tok", 1000⟩ 500 false none).1
            rfl (by decide) (by decide),
         (copilot_get_access_token ⟨"r", "tok", 1000⟩ 2000 false none).2.2
            (Or.inr (Or.inr (by decide))) rfl⟩

section CredentialStore

/-!
## Credential store writes (`auth.py`, `Auth.set` / `Auth.remove`)

Both methods rewrite `auth.json` with `open(path, "w")` followed by
`json.dump(data, f, indent=2)` (lines 102–103 and 127–128): the open truncates
the file to empty and the dump then writes the serialised map.  There is no
temporary file and no rename, so the sequence of on-disk file states a crash
can expose is: the previous content, then the empty file, then every prefix of
the new content.  `inPlaceWriteTrace old new` is that state sequence.
-/

/-- The sequence of credential-file states exposed by `Auth.set`/`Auth.remove`:
the old content, then (after the truncating `open`) each prefix of the new
serialised content, ending with the complete new content. -/
def inPlaceWriteTrace (oldContent newContent : List Char) : List (List Char) :=
  oldContent :: (List.range (newContent.length + 1)).map (fun k => newContent.take k)

/-- The claim's atomicity property: every observable file state during the
write is either the previous content or the new fully-valid content. -/
def atomicOldOrNew (trace : List (List Char)) (oldContent newContent : List Char) :
    Prop :=
  ∀ s ∈ trace, s = oldContent ∨ s = newContent

end CredentialStore

/-- C4: refutation on the code as written.  Updating the stored `openai` key
from `k1` to `k2` exposes the empty file state (left by the truncating
`open(path, "w")`), which is neither the previous content nor the new
fully-valid content — the write is not atomic. -/
theorem auth_set_not_atomic :
    ¬ atomicOldOrNew
        (inPlaceWriteTrace
          (cs "\x7b\"openai\": \x7b\"type\": \"api\", \"key\": \"k1\"\x7d\x7d")
          (cs "\x7b\"openai\": \x7b\"type\": \"api\", \"key\": \"k2\"\x7d\x7d"))
        (cs "\x7b\"openai\": \x7b\"type\": \"api\", \"key\": \"k1\"\x7d\x7d")
        (cs "\x7b\"openai\": \x7b\"type\": \"api\", \"key\": \"k2\"\x7d\x7d") := by
  intro hA
  rcases hA [] (by decide) with h | h
  · exact absurd h (by decide)
  · exact absurd h (by decide)

/-- C4 (amended): a credential write starts from the previous content, ends in
the new fully-valid content when it completes, and every state an interruption
can leave behind is either the previous content or some (possibly empty or
partial) prefix of the new content — in-place truncate-then-write, not
old-state-or-new-state atomicity. -/
theorem auth_set_write_trace_states (oldC newC : List Char) :
    (inPlaceWriteTrace oldC newC).head? = some oldC ∧
    (inPlaceWriteTrace oldC newC).getLast? = some newC ∧
    ∀ s ∈ inPlaceWriteTrace oldC newC, s = oldC ∨ s <+: newC := by
  refine ⟨rfl, ?_, ?_⟩
  · have hsplit :
        inPlaceWriteTrace oldC newC =
          (oldC :: (List.range newC.length).map (fun k => newC.take k)) ++
            [newC.take newC.length] := by
      simp [inPlaceWriteTrace, List.range_succ]
    rw [hsplit, List.getLast?_concat, List.take_length]
  · intro s hs
    rcases List.mem_cons.mp hs with h | h
    · exact Or.inl h
    · rcases List.mem_map.mp h with ⟨k, _, hk⟩
      exact Or.inr (hk ▸ ⟨newC.drop k, List.take_append_drop k newC⟩)

section SystemPrompts

/-!
## System prompt assembly (`session/session.py` lines 315–331)

`_process_streaming` collects `system_prompts` (provider preamble, environment
block, custom instruction files, mode prompt), compresses a list of more than
two entries to `[system_prompts[0], "\n\n".join(system_prompts[1:])]`, and then
appends to the outgoing messages only those entries with `system_msg.strip()`
non-empty.
-/

/-- The `"\n\n"` separator joining the tail prompts. -/
def blankSep : List Char :=
  cs "\n\n"

/-- The compression step: `[prompts[0], "\n\n".join(prompts[1:])]` when the
list has more than two entries, the list unchanged otherwise. -/
def combineSystemPrompts (prompts : List (List Char)) : List (List Char) :=
  if 2 < prompts.length then [prompts.headD [], joinSep blankSep (prompts.drop 1)]
  else prompts

/-- The system messages actually appended to the provider request: combined
entries whose Python `strip()` is non-empty. -/
def sentSystemMessages (prompts : List (List Char)) : List (List Char) :=
  (combineSystemPrompts prompts).filter (fun s => !(pyStrip s).isEmpty)

end SystemPrompts

/-- C7: refutation on the code as written.  With three assembled sources whose
first entry is empty — exactly what `SystemPrompt.provider` returns when the
bundled prompt file is missing, as in this source tree — only one system
message is sent to the provider, not two: the empty first entry is dropped by
the `strip()` filter after compression. -/
theorem system_prompt_compress_counterexample :
    ([[], cs "environment block", cs "mode prompt"] : List (List Char)).length
        = 3 ∧
    (sentSystemMessages [[], cs "environment block", cs "mode prompt"]).length
        = 1 := by
  decide

/-- C7 (amended): with more than two assembled sources, the compressed list has
exactly two entries — the first source unchanged and the blank-line join of
sources 2..N — and these two are the system messages sent to the provider
whenever both have non-empty `strip()`; an entry that strips to empty (such as
a missing provider prompt file yielding an empty first source) is dropped from
the sent messages. -/
theorem system_prompt_compress_amended (prompts : List (List Char))
    (h : 2 < prompts.length) :
    combineSystemPrompts prompts =
      [prompts.headD [], joinSep blankSep (prompts.drop 1)] ∧
    ((pyStrip (prompts.headD [])).isEmpty = false →
      (pyStrip (joinSep blankSep (prompts.drop 1))).isEmpty = false →
      sentSystemMessages prompts =
        [prompts.headD [], joinSep blankSep (prompts.drop 1)]) := by
  match prompts, h with
  | a :: b :: c :: rest, _ =>
    refine ⟨by simp [combineSystemPrompts], fun h1 h2 => ?_⟩
    simp only [List.headD, List.drop] at h1 h2 ⊢
    simp [sentSystemMessages, combineSystemPrompts, List.filter, h1, h2]

/-- Witness for C7: three non-blank sources compress to exactly the two
messages `["first", "second\n\nthird"]`. -/
theorem system_prompt_compress_amended_witness :
    sentSystemMessages [cs "first", cs "second", cs "third"] =
      [cs "first", joinSep blankSep [cs "second", cs "third"]] := by
  exact (system_prompt_compress_amended [cs "first", cs "second", cs "third"]
    (by decide)).2 (by decide) (by decide)

section ReadTool

/-!
## `read` tool (`tools/read.py`, `ReadTool.execute`)

The size guard (`MAX_READ_SIZE = 250 * 1024`) fires before the file is opened;
otherwise the content is split on newlines, the window
`lines[offset : offset + limit]` is selected, lines longer than
`MAX_LINE_LENGTH = 2000` are truncated with an appended `"..."`, and each line
is rendered as `f"{line_num:5d}| {line}"` with `line_num = offset + i + 1`.
`offset or 0` and `limit or DEFAULT_READ_LIMIT` follow Python falsiness.
-/

/-- `MAX_READ_SIZE` (250 KiB). -/
def maxReadSize : Nat := 250 * 1024

/-- `DEFAULT_READ_LIMIT`. -/
def defaultReadLimit : Nat := 2000

/-- `MAX_LINE_LENGTH`. -/
def maxLineLength : Nat := 2000

/-- Decimal rendering of a line number. -/
def decimalDigits (n : Nat) : List Char :=
  (Nat.repr n).data

/-- Clip one line: `line[:2000] + "..."` when longer than 2000 characters. -/
def truncLine (l : List Char) : List Char :=
  if maxLineLength < l.length then l.take maxLineLength ++ cs "..." else l

/-- `f"{line_num:5d}| {line}"`: the number right-aligned in width 5. -/
def numberLine (n : Nat) (l : List Char) : List Char :=
  List.replicate (5 - (decimalDigits n).length) ' ' ++ decimalDigits n ++ cs "| " ++ l

/-- `for i, line in enumerate(truncated_lines): ... offset + i + 1 ...`:
number consecutive lines starting from `start`. -/
def numberFrom (start : Nat) : List (List Char) → List (List Char)
  | [] => []
  | l :: ls => numberLine start l :: numberFrom (start + 1) ls

/-- `args.offset or 0`. -/
def effReadOffset (o : Option Nat) : Nat :=
  o.getD 0

/-- `args.limit or DEFAULT_READ_LIMIT` (Python `or`: `None` and `0` both fall
back to the default). -/
def effReadLimit (l : Option Nat) : Nat :=
  match l with
  | none => defaultReadLimit
  | some v => if v = 0 then defaultReadLimit else v

/-- The numbered, clipped body lines produced by `ReadTool.execute`. -/
def readFormattedLines (content : List Char) (offset limit : Nat) :
    List (List Char) :=
  numberFrom (offset + 1) ((((splitNl content).drop offset).take limit).map truncLine)

/-- `ReadTool.execute` on an existing non-image text file: the 250 KiB size
guard fires before the content is read; otherwise the numbered window of lines
is produced. -/
def readExecute (content : List Char) (offset limit : Option Nat) :
    Except (List Char) (List (List Char)) :=
  if maxReadSize < content.length then
    .error (cs "File is too large (" ++ decimalDigits content.length ++
      cs " bytes). Maximum size is " ++ decimalDigits maxReadSize ++ cs " bytes")
  else
    .ok (readFormattedLines content (effReadOffset offset) (effReadLimit limit))

theorem length_numberFrom (start : Nat) (ls : List (List Char)) :
    (numberFrom start ls).length = ls.length := by
  induction ls generalizing start with
  | nil => rfl
  | cons l ls ih => simp [numberFrom, ih]

theorem getD_numberFrom (start : Nat) (ls : List (List Char)) (j : Nat)
    (hj : j < ls.length) :
    (numberFrom start ls).getD j [] = numberLine (start + j) (ls.getD j []) := by
  induction ls generalizing start j with
  | nil => simp at hj
  | cons l ls ih =>
    cases j with
    | zero => simp [numberFrom, List.getD]
    | succ j =>
      have hj' : j < ls.length := by simpa using hj
      have := ih (start + 1) j hj'
      simp only [numberFrom, List.getD_cons_succ, this]
      have harith : start + 1 + j = start + (j + 1) := by omega
      rw [harith]

end ReadTool

/-- C6: for the read tool with `offset = k` and `limit = n ≥ 1` on an existing
non-image text file within the size bound, the produced body consists of
exactly the file's lines `k+1 .. min(k+n, total)`, each prefixed with its
1-based line number and clipped at 2000 characters (with an appended ellipsis
when longer); a file above 250 KiB yields an error that depends only on the
file's size, not its content. -/
theorem read_tool_window (content : List Char) (k n : Nat) (hn : n ≠ 0) :
    (content.length ≤ maxReadSize →
      ∃ out, readExecute content (some k) (some n) = Except.ok out ∧
        out.length = min (k + n) (splitNl content).length - k ∧
        ∀ j, j < out.length →
          out.getD j [] =
            numberLine (k + j + 1) (truncLine ((splitNl content).getD (k + j) []))) ∧
    (maxReadSize < content.length →
      (readExecute content (some k) (some n)).isOk = false ∧
      ∀ c2 : List Char, c2.length = content.length →
        readExecute c2 (some k) (some n) = readExecute content (some k) (some n)) := by
  constructor
  · intro hsize
    have hif : ¬ maxReadSize < content.length := Nat.not_lt.mpr hsize
    have hlim : effReadLimit (some n) = n := by simp [effReadLimit, hn]
    refine ⟨readFormattedLines content k n, ?_, ?_, ?_⟩
    · simp [readExecute, hif, hlim, effReadOffset]
    · simp only [readFormattedLines, length_numberFrom, List.length_map,
        List.length_take, List.length_drop]
      omega
    · intro j hj
      have hlen : j < ((((splitNl content).drop k).take n).map truncLine).length := by
        simpa [readFormattedLines, length_numberFrom] using hj
      have hjlt : j < n := by
        simp only [List.length_map, List.length_take, List.length_drop] at hlen
        omega
      have hjtot : k + j < (splitNl content).length := by
        simp only [List.length_map, List.length_take, List.length_drop] at hlen
        omega
      rw [readFormattedLines, getD_numberFrom _ _ _ hlen]
      have hsrc : ((((splitNl content).drop k).take n).map truncLine).getD j [] =
          truncLine ((splitNl content).getD (k + j) []) := by
        rw [List.getD_eq_getElem?_getD, List.getElem?_map, List.getElem?_take,
          if_pos hjlt, List.getElem?_drop, List.getD_eq_getElem?_getD,
          List.getElem?_eq_getElem hjtot]
        rfl
      rw [hsrc]
      have harith : k + 1 + j = k + j + 1 := by omega
      rw [harith]
  · intro hsize
    refine ⟨by simp [readExecute, hsize, Except.isOk, Except.toBool], fun c2 hc2 => ?_⟩
    have hsize2 : maxReadSize < c2.length := by omega
    simp [readExecute, hsize, hsize2, hc2]

/-- Witness for C6: reading `"a\nb\nc"` (3 lines) with `offset = 1`,
`limit = 5` yields exactly `min(1+5, 3) - 1 = 2` numbered lines, the second
being line 3 (`"    3| c"`). -/
theorem read_tool_window_witness :
    ∃ out, readExecute (cs "a\nb\nc") (some 1) (some 5) = Except.ok out ∧
      out.length = 2 ∧
      out.getD 1 [] = numberLine 3 (truncLine (cs "c")) := by
  obtain ⟨out, h1, h2, h3⟩ :=
    (read_tool_window (cs "a\nb\nc") 1 5 (by decide)).1 (by decide)
  refine ⟨out, h1, by simpa using h2, ?_⟩
  have := h3 1 (by simp [h2]; decide)
  simpa using this

section EditTool

/-!
## `edit` tool (`tools/edit.py`)

`EditTool.execute` validates `old_string != new_string`, creates the file from
`new_string` when `old_string` is empty, and otherwise runs `_replace_text`,
which tries four candidate generators in order (exact, line-trimmed,
whitespace-normalised, indentation-flexible); for each candidate it uses
`content.find` / `content.rfind` to locate and check uniqueness, replacing all
occurrences when `replace_all` is set.  A `ValueError` from `_replace_text`
propagates before the file is rewritten.
-/

/-- All indices `i` at which `cand` occurs in `s` (in increasing order);
`head?` is Python's `content.find`, `getLast?` is `content.rfind`. -/
def occurrences (s cand : List Char) : List Nat :=
  (List.range (s.length + 1)).filter (fun i => cand.isPrefixOf (s.drop i))

/-- The loop inside Python `content.replace(c, t)` for non-empty `c`:
replace non-overlapping occurrences left to right.  The fuel argument (always
called with at least `s.length`) only forces structural recursion: each step
consumes at least one character of `s` because `c` is non-empty. -/
def pyReplaceGo (c t : List Char) : Nat → List Char → List Char
  | _, [] => []
  | 0, s => s
  | fuel + 1, ch :: rest =>
    if c.isPrefixOf (ch :: rest) then
      t ++ pyReplaceGo c t fuel ((ch :: rest).drop c.length)
    else ch :: pyReplaceGo c t fuel rest

/-- Python `s.replace(c, t)`, including the empty-pattern case
(`"ab".replace("", "-") == "-a-b-"`). -/
def pyReplace (s c t : List Char) : List Char :=
  if c = [] then t ++ s.flatMap (fun ch => ch :: t)
  else pyReplaceGo c t s.length s

/-- Python slice `s[a : b]` with a possibly negative stop index. -/
def pySlice (s : List Char) (a : Nat) (b : Int) : List Char :=
  let b' : Nat := (if b < 0 then max ((s.length : Int) + b) 0
                   else min b (s.length : Int)).toNat
  (s.take b').drop a

/-- `_simple_replacer`: yields the search string itself. -/
def simpleCands (find : List Char) : List (List Char) :=
  [find]

/-- `sum(len(line) + 1 for line in lines)`, the index arithmetic of
`_line_trimmed_replacer`. -/
def sumLens1 (ls : List (List Char)) : Nat :=
  (ls.map (fun l => l.length + 1)).sum

/-- `_line_trimmed_replacer`: every block of consecutive content lines whose
per-line `strip()` equals the search lines' `strip()`, extracted from the
content as `content[start_index : end_index - 1]`. -/
def lineTrimmedCands (content find : List Char) : List (List Char) :=
  let originalLines := splitNl content
  let searchLines0 := splitNl find
  let searchLines :=
    if searchLines0.getLast? = some [] then searchLines0.dropLast else searchLines0
  (List.range (originalLines.length + 1 - searchLines.length)).filterMap (fun i =>
    if (List.range searchLines.length).all
        (fun j => pyStrip (originalLines.getD (i + j) []) ==
          pyStrip (searchLines.getD j [])) then
      some (pySlice content (sumLens1 (originalLines.take i))
        (((sumLens1 (originalLines.take i) +
            sumLens1 ((originalLines.drop i).take searchLines.length) : Nat) : Int) - 1))
    else none)

/-- `_whitespace_normalized_replacer`: content lines whose collapsed
whitespace equals the collapsed search string. -/
def wsNormCands (content find : List Char) : List (List Char) :=
  (splitNl content).filter (fun line => normalizeWs line == normalizeWs find)

/-- `remove_indentation` from `_indentation_flexible_replacer`: strip the
common leading indent of the non-blank lines. -/
def removeIndentation (text : List Char) : List Char :=
  let lines := splitNl text
  let nonEmpty := lines.filter (fun l => !(pyStrip l).isEmpty)
  match nonEmpty.map (fun l => l.length - (pyLstrip l).length) with
  | [] => text
  | n :: ns =>
    let minIndent := ns.foldl Nat.min n
    joinSep (cs "\n") (lines.map (fun l =>
      if !(pyStrip l).isEmpty then l.drop minIndent else l))

/-- `_indentation_flexible_replacer`: blocks of consecutive content lines that
equal the search string after both are de-indented. -/
def indentFlexCands (content find : List Char) : List (List Char) :=
  let contentLines := splitNl content
  let findLines := splitNl find
  let normalizedFind := removeIndentation find
  (List.range (contentLines.length + 1 - findLines.length)).filterMap (fun i =>
    let block := joinSep (cs "\n") ((contentLines.drop i).take findLines.length)
    if removeIndentation block == normalizedFind then some block else none)

/-- All candidate search strings, in the order `_replace_text` tries them. -/
def editCandidates (content find : List Char) : List (List Char) :=
  simpleCands find ++ lineTrimmedCands content find ++ wsNormCands content find ++
    indentFlexCands content find

/-- The body of `_replace_text`'s inner loop for one candidate: `find` the
first occurrence (skip if absent), replace everywhere under `replace_all`,
otherwise require `find == rfind` (uniqueness) and splice `new` over the
single occurrence. -/
def tryCandidate (content new : List Char) (replaceAll : Bool) (cand : List Char) :
    Option (List Char) :=
  match (occurrences content cand).head? with
  | none => none
  | some i =>
    if replaceAll then some (pyReplace content cand new)
    else if (occurrences content cand).getLast? = some i then
      some (content.take i ++ new ++ content.drop (i + cand.length))
    else none

/-- First successful result of `f` over a list, mirroring the generator loop. -/
def firstSome (f : α → Option β) : List α → Option β
  | [] => none
  | a :: as =>
    match f a with
    | some b => some b
    | none => firstSome f as

/-- `_replace_text`: `None` models the `ValueError` raised when `old == new`
or when no candidate yields an acceptable match. -/
def replaceText (content old new : List Char) (replaceAll : Bool) :
    Option (List Char) :=
  if old = new then none
  else firstSome (tryCandidate content new replaceAll) (editCandidates content old)

/-- How one `EditTool.execute` call ends. -/
inductive EditOutcome where
  | created
  | edited
  | error
deriving DecidableEq, Repr

/-- `EditTool.execute` as a transformation of the target file's content
(`none` = the file does not exist): validate `old != new`, create from `new`
when `old` is empty, otherwise replace within the existing content, leaving
the file untouched on any error. -/
def executeEdit (fileContent : Option (List Char)) (old new : List Char)
    (replaceAll : Bool) : Option (List Char) × EditOutcome :=
  if old = new then (fileContent, .error)
  else if old = [] then (some new, .created)
  else
    match fileContent with
    | none => (fileContent, .error)
    | some content =>
      match replaceText content old new replaceAll with
      | some r => (some r, .edited)
      | none => (some content, .error)

end EditTool

theorem mem_occurrences {s c : List Char} {i : Nat} :
    i ∈ occurrences s c ↔ i ≤ s.length ∧ c.isPrefixOf (s.drop i) = true := by
  simp [occurrences, List.mem_filter, List.mem_range, Nat.lt_succ_iff]

theorem occurrences_nil {c : List Char} (hc : c ≠ []) : occurrences [] c = [] := by
  cases c with
  | nil => exact absurd rfl hc
  | cons ch rest => rfl

theorem occ_decomp {s c : List Char} {i : Nat} (h : i ∈ occurrences s c) :
    s.take i ++ c ++ s.drop (i + c.length) = s := by
  obtain ⟨hi, hpre⟩ := mem_occurrences.mp h
  obtain ⟨u, hu⟩ := List.isPrefixOf_iff_prefix.mp hpre
  have hdrop : (s.drop i).drop c.length = u := by
    rw [← hu, List.drop_left]
  have hu2 : s.drop (i + c.length) = u := by
    rw [← hdrop, List.drop_drop]
  rw [hu2, List.append_assoc, hu, List.take_append_drop]

theorem occurrences_tail {c : List Char} {ch : Char} {rest : List Char}
    (hpre : c.isPrefixOf (ch :: rest) = false)
    (hne : occurrences (ch :: rest) c ≠ []) : occurrences rest c ≠ [] := by
  obtain ⟨i, hi⟩ := List.exists_mem_of_ne_nil _ hne
  obtain ⟨hile, hipre⟩ := mem_occurrences.mp hi
  cases i with
  | zero =>
    rw [List.drop_zero] at hipre
    rw [hipre] at hpre
    cases hpre
  | succ j =>
    refine List.ne_nil_of_mem (a := j) (mem_occurrences.mpr ⟨?_, ?_⟩)
    · simpa using hile
    · rw [List.drop_succ_cons] at hipre
      exact hipre

theorem pyReplaceGo_cons (c t : List Char) (fuel : Nat) (ch : Char)
    (rest : List Char) :
    pyReplaceGo c t (fuel + 1) (ch :: rest) =
      if c.isPrefixOf (ch :: rest) then
        t ++ pyReplaceGo c t fuel ((ch :: rest).drop c.length)
      else ch :: pyReplaceGo c t fuel rest := rfl

theorem pyReplaceGo_spec (c t : List Char) (hc : c ≠ []) :
    ∀ fuel s, s.length ≤ fuel →
      ∃ k, (pyReplaceGo c t fuel s).length + k * c.length =
            s.length + k * t.length ∧
        (occurrences s c ≠ [] → 1 ≤ k) := by
  intro fuel
  induction fuel with
  | zero =>
    intro s hs
    have : s = [] := List.eq_nil_of_length_eq_zero (Nat.le_zero.mp hs)
    subst this
    exact ⟨0, by simp [pyReplaceGo], fun h => absurd (occurrences_nil hc) h⟩
  | succ fuel ih =>
    intro s hs
    cases s with
    | nil =>
      exact ⟨0, by simp [pyReplaceGo], fun h => absurd (occurrences_nil hc) h⟩
    | cons ch rest =>
      simp only [List.length_cons] at hs
      rw [pyReplaceGo_cons]
      cases hpre : c.isPrefixOf (ch :: rest) with
      | true =>
        have hcpos : 0 < c.length := List.length_pos.mpr hc
        have hlen' : ((ch :: rest).drop c.length).length ≤ fuel := by
          simp only [List.length_drop, List.length_cons]
          omega
        obtain ⟨k, hk, _⟩ := ih _ hlen'
        refine ⟨k + 1, ?_, fun _ => by omega⟩
        rw [if_pos rfl]
        have hclen : c.length ≤ rest.length + 1 := by
          have := (List.isPrefixOf_iff_prefix.mp hpre).length_le
          simpa using this
        simp only [List.length_append, List.length_drop, List.length_cons] at hk ⊢
        rw [Nat.succ_mul, Nat.succ_mul]
        omega
      | false =>
        obtain ⟨k, hk, hocc⟩ := ih rest (by omega)
        refine ⟨k, ?_, fun hne => hocc (occurrences_tail hpre hne)⟩
        rw [if_neg (by simp)]
        simp only [List.length_cons] at hk ⊢
        omega

theorem pyReplaceGo_ne (c t : List Char) (hc : c ≠ []) (hct : c ≠ t)
    (hlen : c.length = t.length) :
    ∀ fuel s, s.length ≤ fuel → occurrences s c ≠ [] →
      pyReplaceGo c t fuel s ≠ s := by
  intro fuel
  induction fuel with
  | zero =>
    intro s hs hocc
    have : s = [] := List.eq_nil_of_length_eq_zero (Nat.le_zero.mp hs)
    subst this
    exact absurd (occurrences_nil hc) hocc
  | succ fuel ih =>
    intro s hs hocc
    cases s with
    | nil => exact absurd (occurrences_nil hc) hocc
    | cons ch rest =>
      simp only [List.length_cons] at hs
      rw [pyReplaceGo_cons]
      cases hpre : c.isPrefixOf (ch :: rest) with
      | true =>
        rw [if_pos rfl]
        intro heq
        obtain ⟨u, hu⟩ := List.isPrefixOf_iff_prefix.mp hpre
        have htake : (t ++ pyReplaceGo c t fuel ((ch :: rest).drop c.length)).take
            t.length = t := List.take_left _ _
        have htake2 : (c ++ u).take c.length = c := List.take_left _ _
        rw [heq, ← hu, ← hlen] at htake
        rw [htake2] at htake
        exact hct htake
      | false =>
        rw [if_neg (by simp)]
        intro heq
        have htail : pyReplaceGo c t fuel rest = rest := by
          injection heq
        exact ih rest (by omega) (occurrences_tail hpre hocc) htail

theorem length_flatMap_consT (t : List Char) (s : List Char) :
    (s.flatMap (fun ch => ch :: t)).length = s.length * t.length + s.length := by
  induction s with
  | nil => simp
  | cons ch rest ih =>
    simp only [List.flatMap_cons, List.length_append, List.length_cons, ih,
      Nat.succ_mul]
    omega

theorem pyReplace_ne {s c t : List Char} (hocc : occurrences s c ≠ [])
    (hct : c ≠ t) : pyReplace s c t ≠ s := by
  by_cases hc : c = []
  · subst hc
    have ht : t ≠ [] := fun h => hct h.symm
    rw [pyReplace, if_pos rfl]
    intro heq
    have hlen := congrArg List.length heq
    simp only [List.length_append, length_flatMap_consT] at hlen
    have htpos : 0 < t.length := List.length_pos.mpr ht
    have hst : s.length * t.length = 0 := by omega
    rcases Nat.mul_eq_zero.mp hst with h | h
    · -- s = [], but then c = [] occurs in s... lengths: t.length + 0 + 0 = 0
      omega
    · omega
  · rw [pyReplace, if_neg hc]
    by_cases hlen : c.length = t.length
    · exact pyReplaceGo_ne c t hc hct hlen s.length s le_rfl hocc
    · intro heq
      obtain ⟨k, hk, h1⟩ := pyReplaceGo_spec c t hc s.length s le_rfl
      rw [heq] at hk
      have hk1 : 1 ≤ k := h1 hocc
      have : k * c.length = k * t.length := by omega
      exact hlen (Nat.eq_of_mul_eq_mul_left hk1 this)

theorem firstSome_ne_none {α β : Type} {f : α → Option β} {l : List α} {a : α}
    (ha : a ∈ l) (hf : f a ≠ none) : firstSome f l ≠ none := by
  induction l with
  | nil => cases ha
  | cons b bs ih =>
    cases hfb : f b with
    | some v => simp [firstSome, hfb]
    | none =>
      rcases List.mem_cons.mp ha with h | h
      · subst h; exact absurd hfb hf
      · simpa [firstSome, hfb] using ih h

theorem firstSome_eq_some {α β : Type} {f : α → Option β} {l : List α} {b : β}
    (h : firstSome f l = some b) : ∃ a ∈ l, f a = some b := by
  induction l with
  | nil => simp [firstSome] at h
  | cons hd tl ih =>
    cases hhd : f hd with
    | some v =>
      simp only [firstSome, hhd] at h
      exact ⟨hd, List.mem_cons_self hd tl, by rw [hhd, h]⟩
    | none =>
      simp only [firstSome, hhd] at h
      obtain ⟨a, hmem, hfa⟩ := ih h
      exact ⟨a, List.mem_cons_of_mem hd hmem, hfa⟩

theorem tryCandidate_acceptable {content new cand : List Char} {all : Bool}
    (h : (∃ i, occurrences content cand = [i]) ∨
      (all = true ∧ occurrences content cand ≠ [])) :
    tryCandidate content new all cand ≠ none := by
  rcases h with ⟨i, hocc⟩ | ⟨hall, hne⟩
  · cases all <;> simp [tryCandidate, hocc]
  · subst hall
    cases hocc : occurrences content cand with
    | nil => exact absurd hocc hne
    | cons i rest => simp [tryCandidate, hocc]

theorem head?_mem {α : Type} {l : List α} {a : α} (h : l.head? = some a) :
    a ∈ l := by
  cases l with
  | nil => cases h
  | cons x xs =>
    simp only [List.head?_cons, Option.some.injEq] at h
    exact h ▸ List.mem_cons_self x xs

theorem tryCandidate_some_ne {content new cand r : List Char} {all : Bool}
    (h : tryCandidate content new all cand = some r) (hcn : cand ≠ new) :
    r ≠ content := by
  rw [tryCandidate] at h
  cases hh : (occurrences content cand).head? with
  | none =>
    simp only [hh] at h
    exact absurd h (by simp)
  | some i =>
    simp only [hh] at h
    have hocc : occurrences content cand ≠ [] := by
      intro hnil; rw [hnil] at hh; cases hh
    cases all with
    | true =>
      rw [if_pos rfl] at h
      have hr : pyReplace content cand new = r := Option.some.inj h
      rw [← hr]
      exact pyReplace_ne hocc hcn
    | false =>
      rw [if_neg (by simp)] at h
      by_cases hlast : (occurrences content cand).getLast? = some i
      · rw [if_pos hlast] at h
        have hr : content.take i ++ new ++ content.drop (i + cand.length) = r :=
          Option.some.inj h
        intro heq
        have hmem : i ∈ occurrences content cand := head?_mem hh
        have hdec := occ_decomp hmem
        rw [← hr] at heq
        have heq2 : content.take i ++ new ++ content.drop (i + cand.length) =
            content.take i ++ cand ++ content.drop (i + cand.length) :=
          heq.trans hdec.symm
        rw [List.append_assoc, List.append_assoc] at heq2
        have h2 := List.append_cancel_right (List.append_cancel_left heq2)
        exact hcn h2.symm
      · rw [if_neg hlast] at h
        exact absurd h (by simp)

theorem executeEdit_of_replaceText_some {content old new r : List Char}
    {all : Bool} (hold : old ≠ []) (hdiff : old ≠ new)
    (h : replaceText content old new all = some r) :
    executeEdit (some content) old new all = (some r, EditOutcome.edited) := by
  simp [executeEdit, hold, hdiff, h]

/-- C5 (amended): for non-empty `old_string` different from `new_string`, if
some strategy candidate occurs exactly once in the file (or `replace_all` is
set and it occurs at all), the edit succeeds and the file is rewritten with
the replacement result; the matched candidate text exists and the new content
differs from the old whenever that candidate differs from `new_string` (a
fuzzy-strategy candidate equal to `new_string` leaves the content unchanged);
if no candidate yields an acceptable match, the call errors and the file
content is unchanged. -/
theorem edit_replace_amended (content old new : List Char) (all : Bool)
    (hold : old ≠ []) (hdiff : old ≠ new) :
    ((∃ cand ∈ editCandidates content old,
        (∃ i, occurrences content cand = [i]) ∨
          (all = true ∧ occurrences content cand ≠ [])) →
      ∃ r, replaceText content old new all = some r) ∧
    (∀ r, replaceText content old new all = some r →
      executeEdit (some content) old new all = (some r, EditOutcome.edited) ∧
      ∃ cand ∈ editCandidates content old,
        tryCandidate content new all cand = some r ∧
          (cand ≠ new → r ≠ content)) ∧
    (replaceText content old new all = none →
      executeEdit (some content) old new all =
        (some content, EditOutcome.error)) := by
  refine ⟨?_, ?_, ?_⟩
  · rintro ⟨cand, hmem, hacc⟩
    have h1 : tryCandidate content new all cand ≠ none := tryCandidate_acceptable hacc
    have h2 : firstSome (tryCandidate content new all) (editCandidates content old) ≠ none :=
      firstSome_ne_none hmem h1
    rw [replaceText, if_neg hdiff]
    exact Option.ne_none_iff_exists'.mp h2
  · intro r hr
    refine ⟨executeEdit_of_replaceText_some hold hdiff hr, ?_⟩
    rw [replaceText, if_neg hdiff] at hr
    obtain ⟨cand, hmem, hcand⟩ := firstSome_eq_some hr
    exact ⟨cand, hmem, hcand, fun hcn => tryCandidate_some_ne hcand hcn⟩
  · intro hnone
    simp [executeEdit, hold, hdiff, hnone]

/-- Witness for C5 (amended): `old = "ab"` occurs exactly once in `"ab cd"`,
so the edit succeeds. -/
theorem edit_replace_amended_witness :
    ∃ r, replaceText (cs "ab cd") (cs "ab") (cs "xy") false = some r := by
  exact (edit_replace_amended (cs "ab cd") (cs "ab") (cs "xy") false
      (by decide) (by decide)).1
    ⟨cs "ab", by decide, Or.inl ⟨0, by decide⟩⟩

/-- C5: refutation on the code as written.  In a file containing exactly `"x"`,
editing `old_string = "x "` (trailing blank) into `new_string = "x"` finds a
unique line-trimmed match (`"x"`, occurring once), the edit succeeds — and the
rewritten content equals the old content, contradicting "its new content
differs from the old content". -/
theorem edit_unique_match_leaves_content_unchanged :
    cs "x " ≠ cs "x" ∧
    cs "x" ∈ editCandidates (cs "x") (cs "x ") ∧
    occurrences (cs "x") (cs "x") = [0] ∧
    executeEdit (some (cs "x")) (cs "x ") (cs "x") false =
      (some (cs "x"), EditOutcome.edited) := by
  decide

/-- C10: refutation on the code as written.  A call with empty `old_string`
and empty `new_string` on an existing file errors out at the
`old_string == new_string` guard: nothing is written and no creation is
reported, although the claim promises the file is always overwritten with
`new_string`. -/
theorem edit_empty_old_empty_new_errors :
    executeEdit (some (cs "abc")) (cs "") (cs "") false =
      (some (cs "abc"), EditOutcome.error) := by
  decide

/-- C10 (amended): when `old_string` is empty and `new_string` is non-empty
(so the `old != new` validation passes), the file is written with `new_string`
as its entire content — silently discarding any previous content — and the
result is reported as a file creation. -/
theorem edit_empty_old_creates (prior : Option (List Char)) (new : List Char)
    (all : Bool) (hnew : new ≠ []) :
    executeEdit prior [] new all = (some new, EditOutcome.created) := by
  simp [executeEdit, Ne.symm hnew]

/-- Witness for C10 (amended): the existing content `"abc"` is overwritten by
`"hi"` and the call reports a creation. -/
theorem edit_empty_old_creates_witness :
    executeEdit (some (cs "abc")) [] (cs "hi") false =
      (some (cs "hi"), EditOutcome.created) := by
  exact edit_empty_old_creates (some (cs "abc")) (cs "hi") false (by decide)
